import Mathlib

/-!
Shallow embedding of `taggit.py` (macOS Finder tag management).

Python strings are modelled as `List Char` (`PyStr`).  `str.splitlines`
is modelled faithfully: it splits on every line-boundary character
(`\n`, `\r`, `\v`, `\f`, `\x1c`-`\x1e`, `\x85`, U+2028, U+2029), treats
`"\r\n"` as a single boundary, and a trailing boundary yields no final
empty piece.  `str.isnumeric` and `str.upper` are modelled on their ASCII
fragments (the only ones the color machinery exercises).  Python
exceptions are modelled by `Except PyErr`; the
filesystem visible to the module (the `com.apple.FinderInfo` attribute and
the `com.apple.metadata:_kMDItemUserTags` attribute) is modelled by
`FileState`, with `tagAttr = none` standing for an absent or unreadable
attribute (`xattr.getxattr` raising `OSError`) and `AttrVal.undecodable`
standing for attribute bytes on which `plistlib.loads` raises.
-/

deriving instance DecidableEq for Except

namespace Taggit

abbrev PyStr := List Char

/-- Python exception kinds that the module can raise or handle. -/
inductive PyErr
  | valueError
  | typeError
  | attributeError
  | plistError
  | systemExit
deriving DecidableEq

/-- Left-to-right effectful map over `Except`, as a Python list
comprehension over fallible expressions: stops at the first exception. -/
def exceptMap (f : α → Except ε β) : List α → Except ε (List β)
  | [] => .ok []
  | x :: xs =>
    match f x with
    | .error e => .error e
    | .ok y =>
      match exceptMap f xs with
      | .error e => .error e
      | .ok ys => .ok (y :: ys)

/-- Returns `true` iff the computation did not raise. -/
def isOkE : Except ε α → Bool
  | .ok _ => true
  | .error _ => false

/-- Split on `'\n'` alone; always returns a nonempty list of pieces (one
more piece than there are `'\n'` separators).  This is the newline
structure of the two-line encoded-tag format, used to state
line-counting facts; it is not Python `splitlines`. -/
def splitNL : List Char → List (List Char)
  | [] => [[]]
  | c :: rest =>
    if c = '\n' then [] :: splitNL rest
    else
      match splitNL rest with
      | [] => [[c]]
      | h :: t => (c :: h) :: t

/-- Splitting on `'\n'` alone with the trailing-piece rule: counts the
parts the encoded-tag format's own separator produces. -/
def splitlinesNL (s : PyStr) : List PyStr :=
  let p := splitNL s
  if p.getLast? = some [] then p.dropLast else p

/-- The characters Python `str.splitlines` treats as line boundaries:
`\n`, `\r`, `\v` (11), `\f` (12), `\x1c`-`\x1e` (28-30), `\x85` (133),
U+2028 (8232) and U+2029 (8233). -/
def isLineBoundary (c : Char) : Bool :=
  c = '\n' || c = '\r' || c.toNat = 11 || c.toNat = 12 || c.toNat = 28 ||
    c.toNat = 29 || c.toNat = 30 || c.toNat = 133 || c.toNat = 8232 ||
    c.toNat = 8233

/-- Split on every line boundary, `"\r\n"` counting as one boundary;
always returns a nonempty list of boundary-free pieces. -/
def splitLB : List Char → List (List Char)
  | [] => [[]]
  | [c] => if isLineBoundary c then [[], []] else [[c]]
  | c :: c2 :: rest =>
    if c = '\r' ∧ c2 = '\n' then [] :: splitLB rest
    else if isLineBoundary c then [] :: splitLB (c2 :: rest)
    else
      match splitLB (c2 :: rest) with
      | [] => [[c]]
      | h :: t => (c :: h) :: t

/-- Python `str.splitlines`: a trailing boundary does not yield a final
empty piece. -/
def splitlines (s : PyStr) : List PyStr :=
  let p := splitLB s
  if p.getLast? = some [] then p.dropLast else p

/-- Contains no line-boundary character at all. -/
def boundaryFree (s : PyStr) : Prop := ∀ c ∈ s, isLineBoundary c = false

/-- Contains no line-boundary character other than `'\n'` — the strings
on which splitting on `'\n'` and Python `splitlines` agree. -/
def tameStr (s : PyStr) : Prop := ∀ c ∈ s, isLineBoundary c = false ∨ c = '\n'

/-- Decimal digits of a natural number, fuel-based so that it reduces. -/
def natToDigitsAux : Nat → Nat → List Char
  | 0, _ => []
  | fuel + 1, n =>
    if n < 10 then [Char.ofNat (48 + n)]
    else natToDigitsAux fuel (n / 10) ++ [Char.ofNat (48 + n % 10)]

def natToDigits (n : Nat) : List Char := natToDigitsAux (n + 1) n

/-- Python `str(int)`. -/
def intToPyStr (n : Int) : PyStr :=
  if n < 0 then '-' :: natToDigits (-n).toNat else natToDigits n.toNat

/-- Python `int(s)` on an all-digit string (the only way the module calls
it, guarded by `isnumeric`). -/
def pyDigitsToNat (s : PyStr) : Nat :=
  s.foldl (fun a c => a * 10 + (c.toNat - 48)) 0

def pyInt (s : PyStr) : Int := Int.ofNat (pyDigitsToNat s)

/-- Python `str.upper` (ASCII fragment, all the color names need). -/
def pyUpper (s : PyStr) : PyStr := s.map Char.toUpper

/-- Python `str.isnumeric`, ASCII-digit fragment. -/
def pyIsNumeric (s : PyStr) : Bool := !s.isEmpty && s.all (fun c => c.isDigit)

/-- A color argument as the Python code receives it: a `str` or an `int`. -/
inductive ColorInput
  | s (v : PyStr)
  | i (n : Int)
deriving DecidableEq

/-- Models `str(color)` on a color argument. -/
def pyStrOfColor : ColorInput → PyStr
  | .s v => v
  | .i n => intToPyStr n

/-- Models `int(color)` on a color argument (called only under `isnumeric`). -/
def pyIntOfColor : ColorInput → Int
  | .s v => pyInt v
  | .i n => n

/-- Models `_COLOR_TO_CODE_MAPPING` lookup (`dict.__contains__` / `__getitem__`). -/
def colorToCode (s : PyStr) : Option Int :=
  if s = "NONE".toList then some 0
  else if s = "GRAY".toList then some 1
  else if s = "GREEN".toList then some 2
  else if s = "PURPLE".toList then some 3
  else if s = "BLUE".toList then some 4
  else if s = "YELLOW".toList then some 5
  else if s = "RED".toList then some 6
  else if s = "ORANGE".toList then some 7
  else none

/-- Models `_CODE_TO_COLOR_MAPPING` lookup. -/
def codeToColor (n : Int) : Option PyStr :=
  if n = 0 then some ("NONE".toList)
  else if n = 1 then some ("GRAY".toList)
  else if n = 2 then some ("GREEN".toList)
  else if n = 3 then some ("PURPLE".toList)
  else if n = 4 then some ("BLUE".toList)
  else if n = 5 then some ("YELLOW".toList)
  else if n = 6 then some ("RED".toList)
  else if n = 7 then some ("ORANGE".toList)
  else none

structure Tag where
  name : PyStr
  color : PyStr
  color_code : Int
deriving DecidableEq

namespace Tag

/-- Models `Tag._map_color_to_string`.  The `Bool` records whether
`warnings.warn` fired.  A negative int is not `isnumeric` (its `str` has a
leading `'-'`), so it reaches `color.upper()` and raises
`AttributeError`. -/
def map_color_to_string (color : ColorInput) : Except PyErr (PyStr × Bool) :=
  if pyIsNumeric (pyStrOfColor color) then
    match codeToColor (pyIntOfColor color) with
    | some col => .ok (col, false)
    | none => .ok ("NONE".toList, true)
  else
    match color with
    | .s v =>
      match colorToCode (pyUpper v) with
      | some _ => .ok (pyUpper v, false)
      | none => .ok ("NONE".toList, true)
    | .i _ => .error .attributeError

/-- Models `Tag._map_color_to_code`, structured independently of
`map_color_to_string` exactly as the source keeps two parallel
resolution functions. -/
def map_color_to_code (color : ColorInput) : Except PyErr (Int × Bool) :=
  if ¬ pyIsNumeric (pyStrOfColor color) then
    match color with
    | .s v =>
      match colorToCode (pyUpper v) with
      | some k => .ok (k, false)
      | none => .ok (0, true)
    | .i _ => .error .attributeError
  else
    match codeToColor (pyIntOfColor color) with
    | some _ => .ok (pyIntOfColor color, false)
    | none => .ok (0, true)

/-- Models `Tag.__init__`: `color` is resolved first, then `color_code`; the
`Bool` records whether any validation warning fired. -/
def construct (name : PyStr) (color : ColorInput) : Except PyErr (Tag × Bool) :=
  match map_color_to_string color with
  | .error e => .error e
  | .ok (col, w1) =>
    match map_color_to_code color with
    | .error e => .error e
    | .ok (code, w2) => .ok (⟨name, col, code⟩, w1 || w2)

/-- Models `Tag.__str__`: the encoded tag string `"{name}\n{color_code}"`. -/
def str (t : Tag) : PyStr := t.name ++ '\n' :: intToPyStr t.color_code

/-- Models `Tag.from_string`: the `name, color = string_tag.splitlines()`
unpacking raises `ValueError` unless there are exactly two pieces. -/
def from_string (string_tag : PyStr) : Except PyErr Tag :=
  if '\n' ∈ string_tag then
    match splitlines string_tag with
    | [name, color] => (construct name (.s color)).map Prod.fst
    | _ => .error .valueError
  else
    (construct string_tag (.s ("NONE".toList))).map Prod.fst

/-- Models `Tag.from_tuple`: `none` models a 1-element tuple (color defaults to
the int `0`), `some c` a 2-element tuple. -/
def from_tuple (a : PyStr) (c : Option ColorInput) : Except PyErr Tag :=
  match c with
  | none => (construct a (.i 0)).map Prod.fst
  | some ci => (construct a ci).map Prod.fst

end Tag

/-- The Python values that callers pass as a single tag input:
a `Tag`, a `str`, a tuple, or a contract-violating value such as an
`int` or `None`. -/
inductive GenTag
  | tag (t : Tag)
  | str (s : PyStr)
  | tup (a : PyStr) (c : Option ColorInput)
  | intVal (n : Int)
  | noneVal
deriving DecidableEq

/-- Python `repr` of a string (as it appears inside `str(tuple)`). -/
def pyReprStr (s : PyStr) : PyStr := '\'' :: s ++ ['\'']

/-- Python `str` of the tuples we model (only reachable for values that
skipped `_generate_tag`, which never hands a tuple through). -/
def pyReprTup (a : PyStr) (c : Option ColorInput) : PyStr :=
  match c with
  | none => '(' :: pyReprStr a ++ [',', ')']
  | some (.s v) => '(' :: pyReprStr a ++ [',', ' '] ++ pyReprStr v ++ [')']
  | some (.i n) => '(' :: pyReprStr a ++ [',', ' '] ++ intToPyStr n ++ [')']

/-- Python `str()` applied to a tag-input value. -/
def strOf : GenTag → PyStr
  | .tag t => Tag.str t
  | .str s => s
  | .tup a c => pyReprTup a c
  | .intVal n => intToPyStr n
  | .noneVal => "None".toList

/-- Models `_generate_tag`: dispatches on `isinstance`; any value that is neither
a `str` nor a `tuple` is returned unchanged (the `else: return tag`
branch), including non-`Tag` values. -/
def generate_tag : GenTag → Except PyErr GenTag
  | .str s => (Tag.from_string s).map .tag
  | .tup a c => (Tag.from_tuple a c).map .tag
  | g => .ok g

/-- Contents of the tag-list extended attribute:
either bytes that decode to a string list, or bytes on which
`plistlib.loads` raises. -/
inductive AttrVal
  | strings (l : List PyStr)
  | undecodable
deriving DecidableEq

/-- The extended attributes of the target file.  `tagAttr = none` models
an absent or unreadable attribute (`getxattr` raising `OSError`). -/
structure FileState where
  finderInfo : Bool
  tagAttr : Option AttrVal
deriving DecidableEq

/-- Models `_delete_existing_finder_info`: a no-op when the attribute is
absent. -/
def delete_existing_finder_info (st : FileState) : FileState :=
  { st with finderInfo := false }

/-- Models `_get_raw_tags`: `OSError` (absent/unreadable attribute) is caught and
yields `[]`; a `plistlib.loads` failure is not caught. -/
def get_raw_tags (darwin : Bool) (st : FileState) : Except PyErr (List PyStr) :=
  if darwin then
    match st.tagAttr with
    | none => .ok []
    | some (.strings l) => .ok l
    | some .undecodable => .error .plistError
  else .ok []

/-- Models `get_tags`: parses every raw entry with `Tag.from_string`. -/
def get_tags (darwin : Bool) (st : FileState) : Except PyErr (List Tag) :=
  match get_raw_tags darwin st with
  | .error e => .error e
  | .ok raw => exceptMap Tag.from_string raw

/-- One element of the list handed to `_set_tags`: a `Tag` or a `str`. -/
inductive TSItem
  | tag (t : Tag)
  | str (s : PyStr)
deriving DecidableEq

/-- Models `str(Tag.from_string(t))`: the write path's re-normalization of an
already-encoded string. -/
def canonStr (s : PyStr) : Except PyErr PyStr := (Tag.from_string s).map Tag.str

/-- Models `str(t) if isinstance(t, Tag) else str(Tag.from_string(t))`. -/
def normalize_entry : TSItem → Except PyErr PyStr
  | .tag t => .ok (Tag.str t)
  | .str s => canonStr s

/-- Models `_set_tags`: on Darwin, delete `FinderInfo` first, then normalize
every entry and replace the tag attribute; off Darwin, a no-op.  A
normalization failure raises after `FinderInfo` was already deleted. -/
def set_tags (darwin : Bool) (items : List TSItem) (st : FileState) :
    FileState × Option PyErr :=
  if darwin then
    let st1 := delete_existing_finder_info st
    match exceptMap normalize_entry items with
    | .error e => (st1, some e)
    | .ok l => ({ st1 with tagAttr := some (.strings l) }, none)
  else (st, none)

/-- The `tag` parameter of `add_tag` / `remove_tag`: a bare value or a
Python list of values. -/
inductive AddInput
  | single (g : GenTag)
  | list (l : List GenTag)
deriving DecidableEq

/-- The input-normalization prefix shared verbatim by `add_tag` and
`remove_tag`, with the `except TypeError: sys.exit(1)` clause of the
single-input branch. -/
def genAll : AddInput → Except PyErr (List GenTag)
  | .list l => exceptMap generate_tag l
  | .single g =>
    match generate_tag g with
    | .ok t => .ok [t]
    | .error e => .error (if e = .typeError then .systemExit else e)

/-- The append loop of `add_tag`: append `str(tag)` only when not already
present. -/
def addLoop (ts : List GenTag) (tags : List PyStr) : List PyStr :=
  ts.foldl (fun acc t => if strOf t ∈ acc then acc else acc ++ [strOf t]) tags

/-- The removal loop of `remove_tag`:
`tags.pop(tags.index(str(tag)))` removes the first occurrence; absent
inputs are skipped. -/
def removeLoop (ts : List GenTag) (tags : List PyStr) : List PyStr :=
  ts.foldl (fun acc t => if strOf t ∈ acc then acc.erase (strOf t) else acc) tags

/-- Models `add_tag`: returns the final file state together with the exception,
if any, that escaped (state changes made before the exception stand). -/
def add_tag (darwin : Bool) (inp : AddInput) (st : FileState) :
    FileState × Option PyErr :=
  match genAll inp with
  | .error e => (st, some e)
  | .ok tag_list =>
    match get_raw_tags darwin st with
    | .error e => (st, some e)
    | .ok tags => set_tags darwin ((addLoop tag_list tags).map TSItem.str) st

/-- Models `remove_all_tags`. -/
def remove_all_tags (darwin : Bool) (st : FileState) : FileState × Option PyErr :=
  set_tags darwin [] st

/-- Models `remove_tag`. -/
def remove_tag (darwin : Bool) (inp : AddInput) (st : FileState) :
    FileState × Option PyErr :=
  match genAll inp with
  | .error e => (st, some e)
  | .ok tag_list =>
    match get_raw_tags darwin st with
    | .error e => (st, some e)
    | .ok tags => set_tags darwin ((removeLoop tag_list tags).map TSItem.str) st

/-- The tag-input shapes the spec admits for `Normalize`: a `Tag`
(which, in Python, always came out of `Tag.__init__` and hence satisfies
the bijection invariant), a string, or a tuple. -/
def validGen : GenTag → Prop
  | .tag t => codeToColor t.color_code = some t.color
  | .str _ => True
  | .tup _ _ => True
  | .intVal _ => False
  | .noneVal => False

def validInput : AddInput → Prop
  | .single g => validGen g
  | .list l => ∀ g ∈ l, validGen g

instance (s : PyStr) : Decidable (boundaryFree s) :=
  List.decidableBAll (fun c => isLineBoundary c = false) s

instance (s : PyStr) : Decidable (tameStr s) :=
  List.decidableBAll (fun c => isLineBoundary c = false ∨ c = '\n') s

/-- The tag inputs whose strings contain no line-boundary character other
than `'\n'`: on these, the encoded form survives the write path's
re-normalization unchanged. -/
def tameGen : GenTag → Prop
  | .tag t => tameStr t.name
  | .str s => tameStr s
  | .tup a _ => tameStr a
  | .intVal _ => True
  | .noneVal => True

def tameInput : AddInput → Prop
  | .single g => tameGen g
  | .list l => ∀ g ∈ l, tameGen g

/-- A file state whose stored raw entries contain no line-boundary
character other than `'\n'`. -/
def tameState (st : FileState) : Prop :=
  ∀ raw, st.tagAttr = some (.strings raw) → ∀ x ∈ raw, tameStr x

/-! ### General lemmas about the embedding's building blocks -/

theorem emap_ok (f : α → β) (a : α) :
    (Except.ok a : Except ε α).map f = .ok (f a) := rfl

theorem emap_error (f : α → β) (e : ε) :
    (Except.error e : Except ε α).map f = .error e := rfl

theorem exceptMap_mem_left {f : α → Except ε β} {l : List α} {ys : List β}
    (h : exceptMap f l = .ok ys) {x : α} (hx : x ∈ l) :
    ∃ y, y ∈ ys ∧ f x = .ok y := by
  induction l generalizing ys with
  | nil => cases hx
  | cons a as ih =>
    rw [exceptMap] at h
    cases hfa : f a with
    | error e => rw [hfa] at h; exact Except.noConfusion h
    | ok y =>
      rw [hfa] at h
      cases hms : exceptMap f as with
      | error e => rw [hms] at h; exact Except.noConfusion h
      | ok ys0 =>
        rw [hms] at h
        injection h with h
        subst h
        rcases List.mem_cons.mp hx with h | h
        · subst h; exact ⟨y, List.mem_cons_self _ _, hfa⟩
        · obtain ⟨y1, hy1, hf1⟩ := ih hms h
          exact ⟨y1, List.mem_cons_of_mem _ hy1, hf1⟩

theorem exceptMap_mem_right {f : α → Except ε β} {l : List α} {ys : List β}
    (h : exceptMap f l = .ok ys) {y : β} (hy : y ∈ ys) :
    ∃ x, x ∈ l ∧ f x = .ok y := by
  induction l generalizing ys with
  | nil =>
    rw [exceptMap] at h
    injection h with h
    subst h
    cases hy
  | cons a as ih =>
    rw [exceptMap] at h
    cases hfa : f a with
    | error e => rw [hfa] at h; exact Except.noConfusion h
    | ok y0 =>
      rw [hfa] at h
      cases hms : exceptMap f as with
      | error e => rw [hms] at h; exact Except.noConfusion h
      | ok ys0 =>
        rw [hms] at h
        injection h with h
        subst h
        rcases List.mem_cons.mp hy with h | h
        · subst h; exact ⟨a, List.mem_cons_self _ _, hfa⟩
        · obtain ⟨x, hxm, hfx⟩ := ih hms h
          exact ⟨x, List.mem_cons_of_mem _ hxm, hfx⟩

theorem exceptMap_ok_of_forall {f : α → Except ε β} {l : List α}
    (h : ∀ x ∈ l, ∃ y, f x = .ok y) : ∃ ys, exceptMap f l = .ok ys := by
  induction l with
  | nil => exact ⟨[], rfl⟩
  | cons a as ih =>
    obtain ⟨y, hy⟩ := h a (List.mem_cons_self _ _)
    obtain ⟨ys, hys⟩ := ih (fun x hx => h x (List.mem_cons_of_mem _ hx))
    exact ⟨y :: ys, by rw [exceptMap, hy, hys]⟩

theorem exceptMap_id_of {f : α → Except ε α} {l : List α}
    (h : ∀ x ∈ l, f x = .ok x) : exceptMap f l = .ok l := by
  induction l with
  | nil => rfl
  | cons a as ih =>
    rw [exceptMap, h a (List.mem_cons_self _ _),
      ih (fun x hx => h x (List.mem_cons_of_mem _ hx))]

theorem exceptMap_map (f : β → Except ε γ) (g : α → β) (l : List α) :
    exceptMap f (l.map g) = exceptMap (fun x => f (g x)) l := by
  induction l with
  | nil => rfl
  | cons a as ih => rw [List.map_cons, exceptMap, exceptMap, ih]

theorem exceptMap_error_uniform {f : α → Except ε β} {e0 : ε}
    (hu : ∀ z e, f z = .error e → e = e0) {l : List α} {x : α} {ex : ε}
    (hx : x ∈ l) (hf : f x = .error ex) : exceptMap f l = .error e0 := by
  induction l with
  | nil => cases hx
  | cons a as ih =>
    rw [exceptMap]
    cases hfa : f a with
    | error e => rw [hu a e hfa]
    | ok y =>
      rcases List.mem_cons.mp hx with h | h
      · subst h; rw [hfa] at hf; exact Except.noConfusion hf
      · rw [ih h]

theorem splitNL_ne_nil (s : List Char) : splitNL s ≠ [] := by
  induction s with
  | nil => simp [splitNL]
  | cons c rest ih =>
    simp only [splitNL]
    split_ifs
    · simp
    · split <;> simp

theorem splitNL_no_newline {s : List Char} (h : '\n' ∉ s) : splitNL s = [s] := by
  induction s with
  | nil => simp [splitNL]
  | cons c rest ih =>
    have hc : c ≠ '\n' := fun e => h (by rw [e]; exact List.mem_cons_self _ _)
    have hr : '\n' ∉ rest := fun m => h (List.mem_cons_of_mem _ m)
    simp only [splitNL, if_neg hc, ih hr]

theorem splitNL_append (a b : List Char) :
    splitNL (a ++ '\n' :: b) = splitNL a ++ splitNL b := by
  induction a with
  | nil => simp [splitNL]
  | cons c a ih =>
    by_cases hc : c = '\n'
    · subst hc
      simp only [List.cons_append, splitNL, if_pos rfl]
      exact congrArg (fun z => [] :: z) ih
    · simp only [List.cons_append, splitNL, if_neg hc]
      have ih' : splitNL (a.append ('\n' :: b)) = splitNL a ++ splitNL b := ih
      rw [ih']
      cases hsa : splitNL a with
      | nil => exact absurd hsa (splitNL_ne_nil a)
      | cons h t => simp

theorem splitNL_singleton {s x : List Char} (h : splitNL s = [x]) :
    s = x ∧ '\n' ∉ s := by
  induction s generalizing x with
  | nil =>
    simp only [splitNL] at h
    injection h with h
    exact ⟨h, by simp⟩
  | cons c rest ih =>
    by_cases hc : c = '\n'
    · subst hc
      simp only [splitNL, if_pos rfl] at h
      injection h with h1 h2
      exact absurd h2 (splitNL_ne_nil rest)
    · simp only [splitNL, if_neg hc] at h
      cases hsr : splitNL rest with
      | nil => exact absurd hsr (splitNL_ne_nil rest)
      | cons hh tt =>
        rw [hsr] at h
        injection h with h1 h2
        subst h2
        obtain ⟨h3, h4⟩ := ih hsr
        subst h3
        refine ⟨h1, fun hm => ?_⟩
        rcases List.mem_cons.mp hm with h | h
        · exact hc h.symm
        · exact h4 h

theorem splitNL_mem {s p : List Char} (hp : p ∈ splitNL s) : '\n' ∉ p := by
  induction s generalizing p with
  | nil =>
    simp only [splitNL, List.mem_singleton] at hp
    subst hp; simp
  | cons c rest ih =>
    by_cases hc : c = '\n'
    · subst hc
      simp only [splitNL, if_pos rfl] at hp
      rcases List.mem_cons.mp hp with h | h
      · subst h; simp
      · exact ih h
    · simp only [splitNL, if_neg hc] at hp
      cases hsr : splitNL rest with
      | nil => exact absurd hsr (splitNL_ne_nil rest)
      | cons hh tt =>
        rw [hsr] at hp
        rcases List.mem_cons.mp hp with h | h
        · subst h
          have hhh : '\n' ∉ hh := ih (by rw [hsr]; exact List.mem_cons_self _ _)
          intro hm
          rcases List.mem_cons.mp hm with h | h
          · exact hc h.symm
          · exact hhh h
        · exact ih (by rw [hsr]; exact List.mem_cons_of_mem _ h)

theorem not_bd {c : Char} (h : ¬ isLineBoundary c = true) :
    isLineBoundary c = false := by
  cases hb : isLineBoundary c
  · rfl
  · exact absurd hb h

theorem bd_nl : isLineBoundary '\n' = true := by decide

theorem splitLB_ne_nil (s : List Char) : splitLB s ≠ [] := by
  induction s using splitLB.induct with
  | case1 => simp [splitLB]
  | case2 c hb => simp [splitLB, hb]
  | case3 c hb => simp [splitLB, hb]
  | case4 c c2 rest hrn ih => simp [splitLB, hrn]
  | case5 c c2 rest hrn hb ih => simp [splitLB, hrn, hb]
  | case6 c c2 rest hrn hb hsp ih => exact absurd hsp ih
  | case7 c c2 rest hrn hb h t hsp ih => simp [splitLB, hrn, hb, hsp]

theorem bf_nnl {s : PyStr} (h : boundaryFree s) : '\n' ∉ s := by
  intro hm
  have := h _ hm
  simp [isLineBoundary] at this

theorem bf_tame {s : PyStr} (h : boundaryFree s) : tameStr s :=
  fun c hc => Or.inl (h c hc)

theorem tame_nnl_bf {s : PyStr} (ht : tameStr s) (hn : '\n' ∉ s) :
    boundaryFree s := by
  intro c hc
  rcases ht c hc with h | h
  · exact h
  · exact absurd (h ▸ hc) hn

theorem bf_count0 {s : PyStr} (h : boundaryFree s) : s.count '\n' = 0 :=
  List.count_eq_zero.mpr (bf_nnl h)

theorem splitLB_mem (s : PyStr) : ∀ p ∈ splitLB s, boundaryFree p := by
  induction s using splitLB.induct with
  | case1 =>
    intro p hp
    simp only [splitLB, List.mem_singleton] at hp
    subst hp
    intro c hc
    cases hc
  | case2 c hb =>
    intro p hp
    simp only [splitLB, if_pos hb] at hp
    rcases List.mem_cons.mp hp with h | h
    · subst h; intro c0 hc0; cases hc0
    · rw [List.mem_singleton] at h
      subst h; intro c0 hc0; cases hc0
  | case3 c hb =>
    intro p hp
    simp only [splitLB, if_neg hb, List.mem_singleton] at hp
    subst hp
    intro c0 hc0
    rw [List.mem_singleton] at hc0
    subst hc0
    exact not_bd hb
  | case4 c c2 rest hrn ih =>
    intro p hp
    simp only [splitLB, if_pos hrn] at hp
    rcases List.mem_cons.mp hp with h | h
    · subst h; intro c0 hc0; cases hc0
    · exact ih p h
  | case5 c c2 rest hrn hb ih =>
    intro p hp
    simp only [splitLB, if_neg hrn, if_pos hb] at hp
    rcases List.mem_cons.mp hp with h | h
    · subst h; intro c0 hc0; cases hc0
    · exact ih p h
  | case6 c c2 rest hrn hb hsp ih => exact absurd hsp (splitLB_ne_nil _)
  | case7 c c2 rest hrn hb h t hsp ih =>
    intro p hp
    simp only [splitLB, if_neg hrn, if_neg hb, hsp] at hp
    rcases List.mem_cons.mp hp with hm | hm
    · subst hm
      intro c0 hc0
      rcases List.mem_cons.mp hc0 with h0 | h0
      · subst h0; exact not_bd hb
      · exact ih h (by rw [hsp]; exact List.mem_cons_self _ _) c0 h0
    · exact ih p (by rw [hsp]; exact List.mem_cons_of_mem _ hm)

theorem splitNL_cons_nl (rest : List Char) :
    splitNL ('\n' :: rest) = [] :: splitNL rest := by
  simp [splitNL]

theorem splitNL_cons_ne {c : Char} (hc : c ≠ '\n') {rest h : List Char}
    {t : List (List Char)} (hsp : splitNL rest = h :: t) :
    splitNL (c :: rest) = (c :: h) :: t := by
  simp only [splitNL, if_neg hc, hsp]

theorem splitLB_tame {s : PyStr} (ht : tameStr s) : splitLB s = splitNL s := by
  induction s using splitLB.induct with
  | case1 => rfl
  | case2 c hb =>
    have hcn : c = '\n' := by
      rcases ht c (List.mem_singleton_self _) with h | h
      · rw [h] at hb; cases hb
      · exact h
    subst hcn
    simp [splitLB, splitNL, bd_nl]
  | case3 c hb =>
    have hcn : c ≠ '\n' := by
      intro h; subst h; exact hb bd_nl
    simp [splitLB, splitNL, hb, hcn]
  | case4 c c2 rest hrn ih =>
    obtain ⟨hc, hc2⟩ := hrn
    subst hc
    rcases ht '\r' (List.mem_cons_self _ _) with h | h
    · simp [isLineBoundary] at h
    · cases h
  | case5 c c2 rest hrn hb ih =>
    have hcn : c = '\n' := by
      rcases ht c (List.mem_cons_self _ _) with h | h
      · rw [h] at hb; cases hb
      · exact h
    subst hcn
    have ht2 : tameStr (c2 :: rest) := fun c0 hc0 => ht c0 (List.mem_cons_of_mem _ hc0)
    calc splitLB ('\n' :: c2 :: rest) = [] :: splitLB (c2 :: rest) := by
          simp only [splitLB, if_neg hrn, if_pos hb]
      _ = [] :: splitNL (c2 :: rest) := by rw [ih ht2]
      _ = splitNL ('\n' :: c2 :: rest) := (splitNL_cons_nl _).symm
  | case6 c c2 rest hrn hb hsp ih => exact absurd hsp (splitLB_ne_nil _)
  | case7 c c2 rest hrn hb h t hsp ih =>
    have hcn : c ≠ '\n' := by
      intro hh; subst hh; exact hb bd_nl
    have ht2 : tameStr (c2 :: rest) := fun c0 hc0 => ht c0 (List.mem_cons_of_mem _ hc0)
    have hnl2 : splitNL (c2 :: rest) = h :: t := by rw [← ih ht2]; exact hsp
    calc splitLB (c :: c2 :: rest) = (c :: h) :: t := by
          simp only [splitLB, if_neg hrn, if_neg hb, hsp]
      _ = splitNL (c :: c2 :: rest) := (splitNL_cons_ne hcn hnl2).symm

theorem splitLB_single (s : PyStr) :
    ∀ x, splitLB s = [x] → s = x ∧ boundaryFree s := by
  induction s using splitLB.induct with
  | case1 =>
    intro x hx
    simp only [splitLB] at hx
    injection hx with h1
    exact ⟨h1, fun c hc => by cases hc⟩
  | case2 c hb =>
    intro x hx
    simp only [splitLB, if_pos hb] at hx
    injection hx with h1 h2
    cases h2
  | case3 c hb =>
    intro x hx
    simp only [splitLB, if_neg hb] at hx
    injection hx with h1
    refine ⟨h1, fun c0 hc0 => ?_⟩
    rw [List.mem_singleton] at hc0
    subst hc0
    exact not_bd hb
  | case4 c c2 rest hrn ih =>
    intro x hx
    simp only [splitLB, if_pos hrn] at hx
    injection hx with h1 h2
    exact absurd h2 (splitLB_ne_nil _)
  | case5 c c2 rest hrn hb ih =>
    intro x hx
    simp only [splitLB, if_neg hrn, if_pos hb] at hx
    injection hx with h1 h2
    exact absurd h2 (splitLB_ne_nil _)
  | case6 c c2 rest hrn hb hsp ih => exact absurd hsp (splitLB_ne_nil _)
  | case7 c c2 rest hrn hb h t hsp ih =>
    intro x hx
    simp only [splitLB, if_neg hrn, if_neg hb, hsp] at hx
    injection hx with h1 h2
    subst h2
    obtain ⟨hr, hbf⟩ := ih h (by rw [hsp])
    refine ⟨by rw [← h1, hr], fun c0 hc0 => ?_⟩
    rcases List.mem_cons.mp hc0 with h0 | h0
    · subst h0; exact not_bd hb
    · exact hbf c0 (hr ▸ h0)

theorem splitNL_length (s : PyStr) :
    (splitNL s).length = s.count '\n' + 1 := by
  induction s with
  | nil => simp [splitNL]
  | cons c rest ih =>
    by_cases hc : c = '\n'
    · subst hc
      simp [splitNL, ih, List.count_cons_self]
    · cases hsp : splitNL rest with
      | nil => exact absurd hsp (splitNL_ne_nil _)
      | cons h t =>
        rw [hsp] at ih
        simp only [splitNL, if_neg hc, hsp]
        simp only [List.length_cons] at ih ⊢
        rw [List.count_cons_of_ne (Ne.symm hc)]
        exact ih

theorem getLast?_cons_of_ne_nil {α : Type} {l : List α} (h : l ≠ []) (a : α) :
    (a :: l).getLast? = l.getLast? := by
  cases l with
  | nil => exact absurd rfl h
  | cons b t => exact List.getLast?_cons_cons

theorem splitLB_pair_empty (s : PyStr) :
    ∀ x, splitLB s = [x, []] →
      s.count '\n' ≤ 1 ∧ (s.count '\n' = 1 → (splitNL s).getLast? = some []) := by
  induction s using splitLB.induct with
  | case1 =>
    intro x hx
    simp only [splitLB] at hx
    injection hx with h1 h2
    cases h2
  | case2 c hb =>
    intro x hx
    refine ⟨le_trans (List.count_le_length _ _) (by simp), fun h1 => ?_⟩
    have hm : '\n' ∈ [c] := List.count_pos_iff.mp (by omega)
    rw [List.mem_singleton] at hm
    subst hm
    decide
  | case3 c hb =>
    intro x hx
    simp only [splitLB, if_neg hb] at hx
    injection hx with h1 h2
    cases h2
  | case4 c c2 rest hrn ih =>
    intro x hx
    simp only [splitLB, if_pos hrn] at hx
    injection hx with h1 h2
    obtain ⟨hre, hbf⟩ := splitLB_single rest [] h2
    subst hre
    obtain ⟨hc, hc2⟩ := hrn
    subst hc
    subst hc2
    exact ⟨by decide, fun _ => by decide⟩
  | case5 c c2 rest hrn hb ih =>
    intro x hx
    simp only [splitLB, if_neg hrn, if_pos hb] at hx
    injection hx with h1 h2
    obtain ⟨hre, hbf⟩ := splitLB_single _ [] h2
    cases hre
  | case6 c c2 rest hrn hb hsp ih => exact absurd hsp (splitLB_ne_nil _)
  | case7 c c2 rest hrn hb h t hsp ih =>
    intro x hx
    simp only [splitLB, if_neg hrn, if_neg hb, hsp] at hx
    injection hx with h1 h2
    subst h2
    obtain ⟨hcle, himpl⟩ := ih h (by rw [hsp])
    have hcn : c ≠ '\n' := fun hh => by subst hh; exact hb bd_nl
    constructor
    · rw [List.count_cons_of_ne (Ne.symm hcn)]
      exact hcle
    · intro h1
      rw [List.count_cons_of_ne (Ne.symm hcn)] at h1
      have hlast := himpl h1
      cases hnl : splitNL (c2 :: rest) with
      | nil => exact absurd hnl (splitNL_ne_nil _)
      | cons h2 t2 =>
        have hlen := splitNL_length (c2 :: rest)
        rw [hnl, h1] at hlen
        cases t2 with
        | nil => simp at hlen
        | cons b l2 =>
          rw [splitNL_cons_ne hcn hnl, List.getLast?_cons_cons]
          rw [hnl, List.getLast?_cons_cons] at hlast
          exact hlast

theorem splitLB_pair (s : PyStr) :
    ∀ a b, splitLB s = [a, b] → s.count '\n' ≤ 1 := by
  induction s using splitLB.induct with
  | case1 =>
    intro a b hx
    simp only [splitLB] at hx
    injection hx with h1 h2
    cases h2
  | case2 c hb =>
    intro a b hx
    exact le_trans (List.count_le_length _ _) (by simp)
  | case3 c hb =>
    intro a b hx
    simp only [splitLB, if_neg hb] at hx
    injection hx with h1 h2
    cases h2
  | case4 c c2 rest hrn ih =>
    intro a b hx
    simp only [splitLB, if_pos hrn] at hx
    injection hx with h1 h2
    obtain ⟨hre, hbf⟩ := splitLB_single rest b h2
    obtain ⟨hc, hc2⟩ := hrn
    subst hc
    subst hc2
    rw [List.count_cons_of_ne (by decide), List.count_cons_self,
      List.count_eq_zero.mpr (bf_nnl hbf)]
  | case5 c c2 rest hrn hb ih =>
    intro a b hx
    simp only [splitLB, if_neg hrn, if_pos hb] at hx
    injection hx with h1 h2
    obtain ⟨hre, hbf⟩ := splitLB_single _ b h2
    have h0 := List.count_eq_zero.mpr (bf_nnl hbf)
    by_cases hc : c = '\n'
    · subst hc
      rw [List.count_cons_self, h0]
    · rw [List.count_cons_of_ne (Ne.symm hc), h0]
      omega
  | case6 c c2 rest hrn hb hsp ih => exact absurd hsp (splitLB_ne_nil _)
  | case7 c c2 rest hrn hb h t hsp ih =>
    intro a b hx
    simp only [splitLB, if_neg hrn, if_neg hb, hsp] at hx
    injection hx with h1 h2
    subst h2
    have hcn : c ≠ '\n' := fun hh => by subst hh; exact hb bd_nl
    rw [List.count_cons_of_ne (Ne.symm hcn)]
    exact ih h b (by rw [hsp])

theorem splitLB_triple_empty (s : PyStr) :
    ∀ a b, splitLB s = [a, b, []] →
      s.count '\n' ≤ 2 ∧ (s.count '\n' = 2 → (splitNL s).getLast? = some []) := by
  induction s using splitLB.induct with
  | case1 =>
    intro a b hx
    simp only [splitLB] at hx
    injection hx with h1 h2
    cases h2
  | case2 c hb =>
    intro a b hx
    simp only [splitLB, if_pos hb] at hx
    injection hx with h1 h2
    injection h2 with h3 h4
    cases h4
  | case3 c hb =>
    intro a b hx
    simp only [splitLB, if_neg hb] at hx
    injection hx with h1 h2
    cases h2
  | case4 c c2 rest hrn ih =>
    intro a b hx
    simp only [splitLB, if_pos hrn] at hx
    injection hx with h1 h2
    obtain ⟨hcle, himpl⟩ := splitLB_pair_empty rest b h2
    obtain ⟨hc, hc2⟩ := hrn
    subst hc
    subst hc2
    have hcnt : ('\r' :: '\n' :: rest).count '\n' = rest.count '\n' + 1 := by
      rw [List.count_cons_of_ne (by decide), List.count_cons_self]
    constructor
    · omega
    · intro h1
      rw [hcnt] at h1
      have hlast := himpl (by omega)
      have hnl2 : splitNL ('\n' :: rest) = [] :: splitNL rest := splitNL_cons_nl rest
      rw [splitNL_cons_ne (by decide) hnl2]
      rw [getLast?_cons_of_ne_nil (splitNL_ne_nil _)]
      exact hlast
  | case5 c c2 rest hrn hb ih =>
    intro a b hx
    simp only [splitLB, if_neg hrn, if_pos hb] at hx
    injection hx with h1 h2
    obtain ⟨hcle, himpl⟩ := splitLB_pair_empty _ b h2
    by_cases hc : c = '\n'
    · subst hc
      rw [List.count_cons_self]
      constructor
      · omega
      · intro h1
        have hlast := himpl (by omega)
        rw [splitNL_cons_nl, getLast?_cons_of_ne_nil (splitNL_ne_nil _)]
        exact hlast
    · rw [List.count_cons_of_ne (Ne.symm hc)]
      exact ⟨by omega, fun h1 => absurd h1 (by omega)⟩
  | case6 c c2 rest hrn hb hsp ih => exact absurd hsp (splitLB_ne_nil _)
  | case7 c c2 rest hrn hb h t hsp ih =>
    intro a b hx
    simp only [splitLB, if_neg hrn, if_neg hb, hsp] at hx
    injection hx with h1 h2
    subst h2
    obtain ⟨hcle, himpl⟩ := ih h b (by rw [hsp])
    have hcn : c ≠ '\n' := fun hh => by subst hh; exact hb bd_nl
    rw [List.count_cons_of_ne (Ne.symm hcn)]
    refine ⟨hcle, fun h1 => ?_⟩
    have hlast := himpl h1
    cases hnl : splitNL (c2 :: rest) with
    | nil => exact absurd hnl (splitNL_ne_nil _)
    | cons h2 t2 =>
      have hlen := splitNL_length (c2 :: rest)
      rw [hnl, h1] at hlen
      cases t2 with
      | nil => simp at hlen
      | cons b2 l2 =>
        rw [splitNL_cons_ne hcn hnl, List.getLast?_cons_cons]
        rw [hnl, List.getLast?_cons_cons] at hlast
        exact hlast

theorem splitlines_mem {s p : PyStr} (hp : p ∈ splitlines s) : boundaryFree p := by
  simp only [splitlines] at hp
  split at hp
  · exact splitLB_mem s p (List.dropLast_subset _ hp)
  · exact splitLB_mem s p hp

theorem tame_encode {a b : PyStr} (ha : tameStr a) (hb : boundaryFree b) :
    tameStr (a ++ '\n' :: b) := by
  intro c hc
  rcases List.mem_append.mp hc with h | h
  · exact ha c h
  · rcases List.mem_cons.mp h with h0 | h0
    · exact Or.inr h0
    · exact Or.inl (hb c h0)

theorem splitlines_concat_tame {a b : PyStr} (ha : tameStr a)
    (hb : boundaryFree b) (hbne : b ≠ []) :
    splitlines (a ++ '\n' :: b) = splitNL a ++ [b] := by
  have h1 : splitLB (a ++ '\n' :: b) = splitNL a ++ [b] := by
    rw [splitLB_tame (tame_encode ha hb), splitNL_append,
      splitNL_no_newline (bf_nnl hb)]
  simp only [splitlines, h1, List.getLast?_concat]
  rw [if_neg (by simp [hbne])]

theorem splitlines_pair {a b : PyStr} (ha : boundaryFree a)
    (hb : boundaryFree b) (hbne : b ≠ []) :
    splitlines (a ++ '\n' :: b) = [a, b] := by
  rw [splitlines_concat_tame (bf_tame ha) hb hbne, splitNL_no_newline (bf_nnl ha)]
  rfl

theorem char_ofNat_digit {n : Nat} (h : n < 10) :
    (Char.ofNat (48 + n)).isDigit = true := by
  interval_cases n <;> decide

theorem natToDigitsAux_digits :
    ∀ fuel n c, c ∈ natToDigitsAux fuel n → c.isDigit = true := by
  intro fuel
  induction fuel with
  | zero => intro n c hc; simp [natToDigitsAux] at hc
  | succ f ih =>
    intro n c hc
    simp only [natToDigitsAux] at hc
    split_ifs at hc with h10
    · rw [List.mem_singleton] at hc
      subst hc
      exact char_ofNat_digit h10
    · rcases List.mem_append.mp hc with h | h
      · exact ih _ _ h
      · rw [List.mem_singleton] at h
        subst h
        exact char_ofNat_digit (Nat.mod_lt _ (by norm_num))

theorem natToDigitsAux_ne_nil (f n : Nat) : natToDigitsAux (f + 1) n ≠ [] := by
  simp only [natToDigitsAux]
  split_ifs <;> simp

theorem natToDigits_isNumeric (n : Nat) : pyIsNumeric (natToDigits n) = true := by
  cases h : natToDigits n with
  | nil => exact absurd h (natToDigitsAux_ne_nil n n)
  | cons a l =>
    have h2 : ∀ c ∈ a :: l, c.isDigit = true := fun c hc =>
      natToDigitsAux_digits (n + 1) n c
        (by show c ∈ natToDigits n; rw [h]; exact hc)
    simp only [pyIsNumeric, List.isEmpty_cons, Bool.not_false, Bool.true_and,
      List.all_eq_true]
    exact h2

theorem colorToCode_codeToColor {x : PyStr} {k : Int}
    (h : colorToCode x = some k) : codeToColor k = some x := by
  unfold colorToCode at h
  split_ifs at h <;> cases h <;> subst_vars <;> decide

theorem codeToColor_colorToCode {k : Int} {x : PyStr}
    (h : codeToColor k = some x) : colorToCode x = some k := by
  unfold codeToColor at h
  split_ifs at h <;> cases h <;> subst_vars <;> decide

theorem codeToColor_bound {k : Int} {x : PyStr}
    (h : codeToColor k = some x) : 0 ≤ k ∧ k ≤ 7 := by
  unfold codeToColor at h
  split_ifs at h <;> (try cases h) <;> omega

theorem code_digits_props {k : Int} (h0 : 0 ≤ k) (h7 : k ≤ 7) :
    intToPyStr k ≠ [] ∧ boundaryFree (intToPyStr k) ∧
    pyIsNumeric (intToPyStr k) = true ∧ pyInt (intToPyStr k) = k := by
  interval_cases k <;> exact ⟨by decide, by decide, by decide, by decide⟩

/-! ### Lemmas about `Tag.construct`, `Tag.from_string` and `canonStr` -/

theorem mcts_num_some {c : ColorInput} (hn : pyIsNumeric (pyStrOfColor c) = true)
    {k : Int} {col0 : PyStr} (hk : pyIntOfColor c = k)
    (hcc : codeToColor k = some col0) :
    Tag.map_color_to_string c = .ok (col0, false) := by
  unfold Tag.map_color_to_string
  rw [if_pos hn, hk, hcc]

theorem mcts_num_none {c : ColorInput} (hn : pyIsNumeric (pyStrOfColor c) = true)
    (hcc : codeToColor (pyIntOfColor c) = none) :
    Tag.map_color_to_string c = .ok ("NONE".toList, true) := by
  unfold Tag.map_color_to_string
  rw [if_pos hn, hcc]

theorem mctc_num_some {c : ColorInput} (hn : pyIsNumeric (pyStrOfColor c) = true)
    {k : Int} {col0 : PyStr} (hk : pyIntOfColor c = k)
    (hcc : codeToColor k = some col0) :
    Tag.map_color_to_code c = .ok (k, false) := by
  unfold Tag.map_color_to_code
  rw [if_neg (by simp [hn]), hk, hcc]

theorem mctc_num_none {c : ColorInput} (hn : pyIsNumeric (pyStrOfColor c) = true)
    (hcc : codeToColor (pyIntOfColor c) = none) :
    Tag.map_color_to_code c = .ok (0, true) := by
  unfold Tag.map_color_to_code
  rw [if_neg (by simp [hn]), hcc]

theorem mcts_str_some {v : PyStr}
    (hn : ¬ pyIsNumeric (pyStrOfColor (.s v)) = true) {k : Int}
    (hcc : colorToCode (pyUpper v) = some k) :
    Tag.map_color_to_string (.s v) = .ok (pyUpper v, false) := by
  unfold Tag.map_color_to_string
  rw [if_neg hn]
  dsimp only
  rw [hcc]

theorem mcts_str_none {v : PyStr}
    (hn : ¬ pyIsNumeric (pyStrOfColor (.s v)) = true)
    (hcc : colorToCode (pyUpper v) = none) :
    Tag.map_color_to_string (.s v) = .ok ("NONE".toList, true) := by
  unfold Tag.map_color_to_string
  rw [if_neg hn]
  dsimp only
  rw [hcc]

theorem mctc_str_some {v : PyStr}
    (hn : ¬ pyIsNumeric (pyStrOfColor (.s v)) = true) {k : Int}
    (hcc : colorToCode (pyUpper v) = some k) :
    Tag.map_color_to_code (.s v) = .ok (k, false) := by
  unfold Tag.map_color_to_code
  rw [if_pos (by simp [hn])]
  dsimp only
  rw [hcc]

theorem mctc_str_none {v : PyStr}
    (hn : ¬ pyIsNumeric (pyStrOfColor (.s v)) = true)
    (hcc : colorToCode (pyUpper v) = none) :
    Tag.map_color_to_code (.s v) = .ok (0, true) := by
  unfold Tag.map_color_to_code
  rw [if_pos (by simp [hn])]
  dsimp only
  rw [hcc]

theorem mcts_int_err {n : Int}
    (hn : ¬ pyIsNumeric (pyStrOfColor (.i n)) = true) :
    Tag.map_color_to_string (.i n) = .error .attributeError := by
  unfold Tag.map_color_to_string
  rw [if_neg hn]

theorem construct_eq_ok {name : PyStr} {c : ColorInput} {col : PyStr}
    {w1 : Bool} {code : Int} {w2 : Bool}
    (h1 : Tag.map_color_to_string c = .ok (col, w1))
    (h2 : Tag.map_color_to_code c = .ok (code, w2)) :
    Tag.construct name c = .ok (⟨name, col, code⟩, w1 || w2) := by
  unfold Tag.construct
  rw [h1, h2]

theorem construct_eq_err {name : PyStr} {c : ColorInput} {e : PyErr}
    (h1 : Tag.map_color_to_string c = .error e) :
    Tag.construct name c = .error e := by
  unfold Tag.construct
  rw [h1]

theorem construct_ok {name : PyStr} {c : ColorInput} {t : Tag} {w : Bool}
    (h : Tag.construct name c = .ok (t, w)) :
    t.name = name ∧ codeToColor t.color_code = some t.color := by
  by_cases hn : pyIsNumeric (pyStrOfColor c) = true
  · cases hcc : codeToColor (pyIntOfColor c) with
    | some col0 =>
      rw [construct_eq_ok (mcts_num_some hn rfl hcc) (mctc_num_some hn rfl hcc)] at h
      injection h with h
      injection h with h1 h2
      subst h1
      exact ⟨rfl, hcc⟩
    | none =>
      rw [construct_eq_ok (mcts_num_none hn hcc) (mctc_num_none hn hcc)] at h
      injection h with h
      injection h with h1 h2
      subst h1
      refine ⟨rfl, ?_⟩
      show codeToColor 0 = some ("NONE".toList)
      decide
  · cases c with
    | i n =>
      rw [construct_eq_err (mcts_int_err hn)] at h
      exact Except.noConfusion h
    | s v =>
      cases hcc : colorToCode (pyUpper v) with
      | some k =>
        rw [construct_eq_ok (mcts_str_some hn hcc) (mctc_str_some hn hcc)] at h
        injection h with h
        injection h with h1 h2
        subst h1
        exact ⟨rfl, colorToCode_codeToColor hcc⟩
      | none =>
        rw [construct_eq_ok (mcts_str_none hn hcc) (mctc_str_none hn hcc)] at h
        injection h with h
        injection h with h1 h2
        subst h1
        refine ⟨rfl, ?_⟩
        show codeToColor 0 = some ("NONE".toList)
        decide

theorem construct_s_ok (name v : PyStr) :
    ∃ p, Tag.construct name (.s v) = .ok p := by
  by_cases hn : pyIsNumeric (pyStrOfColor (.s v)) = true
  · cases hcc : codeToColor (pyIntOfColor (.s v)) with
    | some col =>
      exact ⟨_, construct_eq_ok (mcts_num_some hn rfl hcc) (mctc_num_some hn rfl hcc)⟩
    | none =>
      exact ⟨_, construct_eq_ok (mcts_num_none hn hcc) (mctc_num_none hn hcc)⟩
  · cases hcc : colorToCode (pyUpper v) with
    | some k =>
      exact ⟨_, construct_eq_ok (mcts_str_some hn hcc) (mctc_str_some hn hcc)⟩
    | none =>
      exact ⟨_, construct_eq_ok (mcts_str_none hn hcc) (mctc_str_none hn hcc)⟩

theorem from_string_ok {s : PyStr} {t : Tag} (h : Tag.from_string s = .ok t) :
    codeToColor t.color_code = some t.color ∧ '\n' ∉ t.name := by
  rw [Tag.from_string] at h
  split_ifs at h with hnl
  · split at h
    · rename_i name color heq
      cases hc : Tag.construct name (.s color) with
      | error e => rw [hc, emap_error] at h; exact Except.noConfusion h
      | ok p =>
        obtain ⟨t0, w⟩ := p
        rw [hc, emap_ok] at h
        injection h with h
        subst h
        obtain ⟨hn, hcc⟩ := construct_ok hc
        refine ⟨hcc, ?_⟩
        rw [hn]
        exact bf_nnl (splitlines_mem (by rw [heq]; exact List.mem_cons_self _ _))
    · exact Except.noConfusion h
  · cases hc : Tag.construct s (.s ("NONE".toList)) with
    | error e => rw [hc, emap_error] at h; exact Except.noConfusion h
    | ok p =>
      obtain ⟨t0, w⟩ := p
      rw [hc, emap_ok] at h
      injection h with h
      subst h
      obtain ⟨hn, hcc⟩ := construct_ok hc
      exact ⟨hcc, by rw [hn]; exact hnl⟩

theorem from_string_error {s : PyStr} {e : PyErr}
    (h : Tag.from_string s = .error e) : e = .valueError := by
  rw [Tag.from_string] at h
  split_ifs at h with hnl
  · split at h
    · rename_i name color heq
      obtain ⟨p, hp⟩ := construct_s_ok name color
      rw [hp, emap_ok] at h
      exact Except.noConfusion h
    · injection h with h
      exact h.symm
  · obtain ⟨p, hp⟩ := construct_s_ok s ("NONE".toList)
    rw [hp, emap_ok] at h
    exact Except.noConfusion h

theorem from_string_str {t : Tag} (hcc : codeToColor t.color_code = some t.color)
    (hbf : boundaryFree t.name) : Tag.from_string (Tag.str t) = .ok t := by
  obtain ⟨hb0, hb7⟩ := codeToColor_bound hcc
  obtain ⟨hdne, hdbf, hdnum, hdval⟩ := code_digits_props hb0 hb7
  have hmem : '\n' ∈ Tag.str t :=
    List.mem_append_right _ (List.mem_cons_self _ _)
  have hsp : splitlines (Tag.str t) = [t.name, intToPyStr t.color_code] :=
    splitlines_pair hbf hdbf hdne
  rw [Tag.from_string, if_pos hmem, hsp]
  dsimp only
  have e1 : Tag.map_color_to_string (.s (intToPyStr t.color_code)) =
      .ok (t.color, false) :=
    @mcts_num_some (.s (intToPyStr t.color_code)) hdnum t.color_code t.color hdval hcc
  have e2 : Tag.map_color_to_code (.s (intToPyStr t.color_code)) =
      .ok (t.color_code, false) :=
    @mctc_num_some (.s (intToPyStr t.color_code)) hdnum t.color_code t.color hdval hcc
  rw [construct_eq_ok e1 e2, emap_ok]

theorem from_string_str_inv {t u : Tag}
    (hcc : codeToColor t.color_code = some t.color) (htm : tameStr t.name)
    (h : Tag.from_string (Tag.str t) = .ok u) : u = t ∧ boundaryFree t.name := by
  obtain ⟨hb0, hb7⟩ := codeToColor_bound hcc
  obtain ⟨hdne, hdbf, hdnum, hdval⟩ := code_digits_props hb0 hb7
  have hmem : '\n' ∈ Tag.str t :=
    List.mem_append_right _ (List.mem_cons_self _ _)
  have hsp : splitlines (Tag.str t) = splitNL t.name ++ [intToPyStr t.color_code] :=
    splitlines_concat_tame htm hdbf hdne
  cases hsn : splitNL t.name with
  | nil => exact absurd hsn (splitNL_ne_nil _)
  | cons a l =>
    cases l with
    | nil =>
      obtain ⟨hna, hnl⟩ := splitNL_singleton hsn
      have hbf : boundaryFree t.name := tame_nnl_bf htm hnl
      have h2 := from_string_str hcc hbf
      rw [h2] at h
      injection h with h
      exact ⟨h.symm, hbf⟩
    | cons b l2 =>
      have herr : Tag.from_string (Tag.str t) = .error .valueError := by
        rw [Tag.from_string, if_pos hmem, hsp, hsn]
        simp only [List.cons_append]
        cases hl : l2 ++ [intToPyStr t.color_code] with
        | nil => simp at hl
        | cons x xs => rfl
      rw [herr] at h
      exact Except.noConfusion h

theorem from_string_tame_name {s : PyStr} {t : Tag} (hts : tameStr s)
    (h : Tag.from_string s = .ok t) : boundaryFree t.name := by
  rw [Tag.from_string] at h
  split_ifs at h with hnl
  · split at h
    · rename_i name color heq
      cases hc : Tag.construct name (.s color) with
      | error e => rw [hc, emap_error] at h; exact Except.noConfusion h
      | ok p =>
        obtain ⟨t0, w⟩ := p
        rw [hc, emap_ok] at h
        injection h with h
        subst h
        obtain ⟨hn, hcc⟩ := construct_ok hc
        rw [hn]
        exact splitlines_mem (by rw [heq]; exact List.mem_cons_self _ _)
    · exact Except.noConfusion h
  · cases hc : Tag.construct s (.s ("NONE".toList)) with
    | error e => rw [hc, emap_error] at h; exact Except.noConfusion h
    | ok p =>
      obtain ⟨t0, w⟩ := p
      rw [hc, emap_ok] at h
      injection h with h
      subst h
      obtain ⟨hn, hcc⟩ := construct_ok hc
      rw [hn]
      exact tame_nnl_bf hts hnl

theorem canonStr_tame_ok {s y : PyStr} (hts : tameStr s)
    (h : canonStr s = .ok y) :
    ∃ t : Tag, Tag.from_string y = .ok t ∧ Tag.str t = y ∧ canonStr y = .ok y := by
  unfold canonStr at h ⊢
  cases hf : Tag.from_string s with
  | error e => rw [hf, emap_error] at h; exact Except.noConfusion h
  | ok t =>
    rw [hf, emap_ok] at h
    injection h with h
    subst h
    have hcc := (from_string_ok hf).1
    have hbf := from_string_tame_name hts hf
    have h2 := from_string_str hcc hbf
    exact ⟨t, h2, rfl, by rw [h2, emap_ok]⟩

theorem canon_str_inv {t : Tag} {y : PyStr}
    (hcc : codeToColor t.color_code = some t.color) (htm : tameStr t.name)
    (h : canonStr (Tag.str t) = .ok y) : y = Tag.str t ∧ boundaryFree t.name := by
  unfold canonStr at h
  cases hf : Tag.from_string (Tag.str t) with
  | error e => rw [hf, emap_error] at h; exact Except.noConfusion h
  | ok u =>
    rw [hf, emap_ok] at h
    injection h with h
    obtain ⟨hu, hbf⟩ := from_string_str_inv hcc htm hf
    subst hu
    exact ⟨h.symm, hbf⟩

theorem canon_str_stable {t : Tag}
    (hcc : codeToColor t.color_code = some t.color)
    (hbf : boundaryFree t.name) :
    canonStr (Tag.str t) = .ok (Tag.str t) := by
  unfold canonStr
  rw [from_string_str hcc hbf, emap_ok]

/-! ### Lemmas about the store operations -/

theorem addLoop_nil (acc : List PyStr) : addLoop [] acc = acc := rfl

theorem addLoop_cons (t : GenTag) (ts : List GenTag) (acc : List PyStr) :
    addLoop (t :: ts) acc =
      addLoop ts (if strOf t ∈ acc then acc else acc ++ [strOf t]) := rfl

theorem removeLoop_nil (acc : List PyStr) : removeLoop [] acc = acc := rfl

theorem removeLoop_cons (t : GenTag) (ts : List GenTag) (acc : List PyStr) :
    removeLoop (t :: ts) acc =
      removeLoop ts (if strOf t ∈ acc then acc.erase (strOf t) else acc) := rfl

theorem removeLoop_single (g : GenTag) (raw : List PyStr) :
    removeLoop [g] raw = raw.erase (strOf g) := by
  rw [removeLoop_cons]
  by_cases hm : strOf g ∈ raw
  · rw [if_pos hm, removeLoop_nil]
  · rw [if_neg hm, removeLoop_nil, List.erase_of_not_mem hm]

theorem addLoop_mono {ts : List GenTag} {acc : List PyStr} {a : PyStr}
    (ha : a ∈ acc) : a ∈ addLoop ts acc := by
  induction ts generalizing acc with
  | nil => exact ha
  | cons t ts ih =>
    rw [addLoop_cons]
    by_cases hm : strOf t ∈ acc
    · rw [if_pos hm]; exact ih ha
    · rw [if_neg hm]; exact ih (List.mem_append_left _ ha)

theorem addLoop_mem {ts : List GenTag} {g : GenTag} (hg : g ∈ ts)
    (acc : List PyStr) : strOf g ∈ addLoop ts acc := by
  induction ts generalizing acc with
  | nil => cases hg
  | cons t ts ih =>
    rw [addLoop_cons]
    rcases List.mem_cons.mp hg with h | h
    · subst h
      apply addLoop_mono
      by_cases hm : strOf g ∈ acc
      · rw [if_pos hm]; exact hm
      · rw [if_neg hm]
        exact List.mem_append_right _ (List.mem_cons_self _ _)
    · exact ih h _

theorem addLoop_nodup {ts : List GenTag} :
    ∀ {acc : List PyStr}, acc.Nodup → (addLoop ts acc).Nodup := by
  induction ts with
  | nil => intro acc h; exact h
  | cons t ts ih =>
    intro acc h
    rw [addLoop_cons]
    apply ih
    by_cases hm : strOf t ∈ acc
    · rwa [if_pos hm]
    · rw [if_neg hm]
      exact List.nodup_append.mpr ⟨h, List.nodup_singleton _,
        fun a ha hb => hm (by rwa [List.mem_singleton.mp hb] at ha)⟩

theorem addLoop_fixed {ts : List GenTag} {acc : List PyStr}
    (h : ∀ g ∈ ts, strOf g ∈ acc) : addLoop ts acc = acc := by
  induction ts with
  | nil => rfl
  | cons t ts ih =>
    rw [addLoop_cons, if_pos (h t (List.mem_cons_self _ _))]
    exact ih fun g hg => h g (List.mem_cons_of_mem _ hg)

theorem set_tags_str_error {l : List PyStr} {st : FileState} {e : PyErr}
    (h : exceptMap canonStr l = .error e) :
    set_tags true (l.map TSItem.str) st = ({ st with finderInfo := false }, some e) := by
  have hm : exceptMap normalize_entry (l.map TSItem.str) = exceptMap canonStr l := by
    rw [exceptMap_map]
    rfl
  rw [set_tags, if_pos rfl, hm, h]
  rfl

theorem set_tags_str_ok {l : List PyStr} {st : FileState} {ws : List PyStr}
    (h : exceptMap canonStr l = .ok ws) :
    set_tags true (l.map TSItem.str) st = (⟨false, some (.strings ws)⟩, none) := by
  have hm : exceptMap normalize_entry (l.map TSItem.str) = exceptMap canonStr l := by
    rw [exceptMap_map]
    rfl
  rw [set_tags, if_pos rfl, hm, h]
  rfl

theorem get_raw_eq {d : Bool} {st st' : FileState} (h : st.tagAttr = st'.tagAttr) :
    get_raw_tags d st = get_raw_tags d st' := by
  simp [get_raw_tags, h]

theorem generate_tag_valid {g g' : GenTag} (hv : validGen g) (htg : tameGen g)
    (h : generate_tag g = .ok g') :
    ∃ t : Tag, g' = .tag t ∧ codeToColor t.color_code = some t.color ∧
      tameStr t.name := by
  cases g with
  | tag t =>
    injection h with h
    exact ⟨t, h.symm, hv, htg⟩
  | str s =>
    simp only [generate_tag] at h
    cases hf : Tag.from_string s with
    | error e => rw [hf, emap_error] at h; exact Except.noConfusion h
    | ok t =>
      rw [hf, emap_ok] at h
      injection h with h
      exact ⟨t, h.symm, (from_string_ok hf).1,
        bf_tame (from_string_tame_name htg hf)⟩
  | tup a c =>
    cases c with
    | none =>
      have h' : ((Tag.construct a (.i 0)).map Prod.fst).map GenTag.tag = .ok g' := h
      cases hc : Tag.construct a (.i 0) with
      | error e => rw [hc, emap_error, emap_error] at h'; exact Except.noConfusion h'
      | ok p =>
        obtain ⟨t, w⟩ := p
        rw [hc, emap_ok, emap_ok] at h'
        injection h' with h'
        exact ⟨t, h'.symm, (construct_ok hc).2,
          by rw [(construct_ok hc).1]; exact htg⟩
    | some ci =>
      have h' : ((Tag.construct a ci).map Prod.fst).map GenTag.tag = .ok g' := h
      cases hc : Tag.construct a ci with
      | error e => rw [hc, emap_error, emap_error] at h'; exact Except.noConfusion h'
      | ok p =>
        obtain ⟨t, w⟩ := p
        rw [hc, emap_ok, emap_ok] at h'
        injection h' with h'
        exact ⟨t, h'.symm, (construct_ok hc).2,
          by rw [(construct_ok hc).1]; exact htg⟩
  | intVal n => exact hv.elim
  | noneVal => exact hv.elim

theorem genAll_valid {inp : AddInput} {gl : List GenTag} (hv : validInput inp)
    (htm : tameInput inp) (h : genAll inp = .ok gl) :
    ∀ g ∈ gl, ∃ t : Tag, g = .tag t ∧ codeToColor t.color_code = some t.color ∧
      tameStr t.name := by
  cases inp with
  | single g0 =>
    simp only [genAll] at h
    cases hg : generate_tag g0 with
    | error e => rw [hg] at h; exact Except.noConfusion h
    | ok t0 =>
      rw [hg] at h
      injection h with h
      subst h
      intro g hgm
      rw [List.mem_singleton] at hgm
      subst hgm
      exact generate_tag_valid hv htm hg
  | list l =>
    intro g hgm
    obtain ⟨x, hx, hfx⟩ := exceptMap_mem_right h hgm
    exact generate_tag_valid (hv x hx) (htm x hx) hfx

theorem get_raw_tame {st : FileState} {raw : List PyStr} (hs : tameState st)
    (h : get_raw_tags true st = .ok raw) : ∀ x ∈ raw, tameStr x := by
  cases hta : st.tagAttr with
  | none =>
    have h0 : get_raw_tags true st = .ok [] := by
      rw [get_raw_tags, if_pos rfl, hta]
    rw [h0] at h
    injection h with h
    subst h
    intro x hx
    cases hx
  | some v =>
    cases v with
    | strings l =>
      have h0 : get_raw_tags true st = .ok l := by
        rw [get_raw_tags, if_pos rfl, hta]
      rw [h0] at h
      injection h with h
      subst h
      exact hs l hta
    | undecodable =>
      have h0 : get_raw_tags true st = .error .plistError := by
        rw [get_raw_tags, if_pos rfl, hta]
      rw [h0] at h
      exact Except.noConfusion h

theorem addLoop_mem_inv {ts : List GenTag} :
    ∀ {acc : List PyStr} {a : PyStr}, a ∈ addLoop ts acc →
      a ∈ acc ∨ ∃ g ∈ ts, a = strOf g := by
  induction ts with
  | nil => intro acc a ha; exact Or.inl ha
  | cons t ts ih =>
    intro acc a ha
    rw [addLoop_cons] at ha
    rcases ih ha with h | ⟨g, hg, hag⟩
    · by_cases hmm : strOf t ∈ acc
      · rw [if_pos hmm] at h
        exact Or.inl h
      · rw [if_neg hmm] at h
        rcases List.mem_append.mp h with h2 | h2
        · exact Or.inl h2
        · rw [List.mem_singleton] at h2
          exact Or.inr ⟨t, List.mem_cons_self _ _, h2⟩
    · exact Or.inr ⟨g, List.mem_cons_of_mem _ hg, hag⟩

/-! ### Two helper equations for `set_tags` on arbitrary item lists -/

theorem set_tags_eq_error {items : List TSItem} {st : FileState} {e : PyErr}
    (h : exceptMap normalize_entry items = .error e) :
    set_tags true items st = ({ st with finderInfo := false }, some e) := by
  rw [set_tags, if_pos rfl, h]
  rfl

theorem set_tags_eq_ok {items : List TSItem} {st : FileState} {l : List PyStr}
    (h : exceptMap normalize_entry items = .ok l) :
    set_tags true items st = (⟨false, some (.strings l)⟩, none) := by
  rw [set_tags, if_pos rfl, h]
  rfl

/-! ### The claims -/

/-- C1, counterexample: with a pre-existing raw entry in a non-canonical
encoding (a color name, `"a\nBLUE"`), adding the canonically encoded same
tag appends it (the membership test compares raw strings), and the write
step re-normalizes both entries to `"a\n4"`, so the list written back
contains two identical encoded strings. -/
theorem c1_counterexample :
    add_tag true (.single (.str ("a\n4".toList)))
        ⟨true, some (.strings [("a\nBLUE".toList)])⟩ =
      (⟨false, some (.strings [("a\n4".toList), ("a\n4".toList)])⟩, none) ∧
    ¬ ([("a\n4".toList), ("a\n4".toList)] : List PyStr).Nodup :=
  ⟨by decide, by decide⟩

/-- C1, amended: the append loop of `add_tag` preserves freedom from
duplicates — the list that reaches the write step is duplicate-free
whenever the pre-existing raw list is duplicate-free.  (The write step's
re-normalization of non-canonical entries can still reintroduce
duplicates, as the counterexample shows.) -/
theorem c1_dedup (ts : List GenTag) (raw : List PyStr) (h : raw.Nodup) :
    (addLoop ts raw).Nodup :=
  addLoop_nodup h

/-- C1, witness for `c1_dedup` at a concrete duplicate-free raw list. -/
theorem c1_dedup_witness :
    ([("x\n0".toList)] : List PyStr).Nodup ∧
    (addLoop [.str ("y".toList)] [("x\n0".toList)]).Nodup :=
  ⟨by decide, c1_dedup _ _ (by decide)⟩

/-- C2, counterexample: if the encoded form is stored twice, `remove_tag`
removes only the first occurrence, and a subsequent `get_tags` still
returns a tag with the removed encoded form. -/
theorem c2_counterexample :
    remove_tag true (.single (.str ("a\n4".toList)))
        ⟨true, some (.strings [("a\n4".toList), ("a\n4".toList)])⟩ =
      (⟨false, some (.strings [("a\n4".toList)])⟩, none) ∧
    get_tags true ⟨false, some (.strings [("a\n4".toList)])⟩ =
      .ok [⟨"a".toList, "BLUE".toList, 4⟩] ∧
    Tag.str ⟨"a".toList, "BLUE".toList, 4⟩ = "a\n4".toList :=
  ⟨by decide, by decide, by decide⟩

/-- C2, amended: `remove_tag` removes the first occurrence of the
normalized input's encoded form from the raw list (absent inputs are
silently ignored), and a subsequent `get_tags` returns no tag with that
encoded form, provided the encoded form occurs at most once in the raw
list, no other raw entry re-normalizes to it (every raw entry
re-normalizing successfully), and every raw entry is free of
line-boundary characters other than `'\n'`. -/
theorem c2_remove (st : FileState) (raw : List PyStr) (g : GenTag) (t : Tag)
    (hst : st.tagAttr = some (.strings raw))
    (hg : generate_tag g = .ok (.tag t))
    (hcount : raw.count (Tag.str t) ≤ 1)
    (htame : ∀ x ∈ raw, tameStr x)
    (hcanon : ∀ x ∈ raw, isOkE (canonStr x) = true ∧
      (canonStr x = .ok (Tag.str t) → x = Tag.str t)) :
    removeLoop [GenTag.tag t] raw = raw.erase (Tag.str t) ∧
    (remove_tag true (.single g) st).2 = none ∧
    ∃ l, get_tags true (remove_tag true (.single g) st).1 = .ok l ∧
      ∀ u ∈ l, Tag.str u ≠ Tag.str t := by
  have hloop : removeLoop [GenTag.tag t] raw = raw.erase (Tag.str t) :=
    removeLoop_single _ _
  have hargs : genAll (.single g) = .ok [GenTag.tag t] := by
    simp only [genAll]
    rw [hg]
  have hraw : get_raw_tags true st = .ok raw := by
    rw [get_raw_tags, if_pos rfl, hst]
  have herase : Tag.str t ∉ raw.erase (Tag.str t) := by
    intro hmem
    have h1 : 0 < (raw.erase (Tag.str t)).count (Tag.str t) :=
      List.count_pos_iff.mpr hmem
    rw [List.count_erase_self] at h1
    omega
  have hok : ∀ x ∈ raw.erase (Tag.str t), ∃ y, canonStr x = .ok y := by
    intro x hx
    have hx2 : x ∈ raw := List.erase_subset _ _ hx
    have h1 := (hcanon x hx2).1
    cases hc : canonStr x with
    | error e => rw [hc] at h1; exact absurd h1 (by simp [isOkE])
    | ok y => exact ⟨y, rfl⟩
  obtain ⟨ws, hws⟩ := exceptMap_ok_of_forall hok
  have hrm : remove_tag true (.single g) st = (⟨false, some (.strings ws)⟩, none) := by
    simp only [remove_tag, hargs, hraw, hloop]
    exact set_tags_str_ok hws
  rw [hrm]
  refine ⟨hloop, rfl, ?_⟩
  have hfs : ∀ y ∈ ws, ∃ u, Tag.from_string y = .ok u := by
    intro y hy
    obtain ⟨x, hx, hcx⟩ := exceptMap_mem_right hws hy
    obtain ⟨u, hu, hsu, hcy⟩ :=
      canonStr_tame_ok (htame x (List.erase_subset _ _ hx)) hcx
    exact ⟨u, hu⟩
  obtain ⟨l, hl⟩ := exceptMap_ok_of_forall hfs
  refine ⟨l, ?_, ?_⟩
  · have hg2 : get_raw_tags true (⟨false, some (.strings ws)⟩ : FileState) = .ok ws := rfl
    simp only [get_tags, hg2]
    exact hl
  · intro u hu
    obtain ⟨y, hy, hfy⟩ := exceptMap_mem_right hl hu
    obtain ⟨x, hx, hcx⟩ := exceptMap_mem_right hws hy
    obtain ⟨u2, hfu2, hsu2, hcany⟩ :=
      canonStr_tame_ok (htame x (List.erase_subset _ _ hx)) hcx
    have huu : u2 = u := by
      rw [hfy] at hfu2
      injection hfu2 with h1
      exact h1.symm
    intro heq
    have hye : y = Tag.str t := by
      rw [← hsu2, huu, heq]
    have hcx2 : canonStr x = .ok (Tag.str t) := by
      rw [← hye]
      exact hcx
    have hxe : x = Tag.str t := (hcanon x (List.erase_subset _ _ hx)).2 hcx2
    exact herase (hxe ▸ hx)

/-- C2, witness for `c2_remove` at a concrete store holding
`["b\n2", "a\n4"]` and removing `"a\n4"`. -/
theorem c2_remove_witness :
    generate_tag (.str ("a\n4".toList)) = .ok (.tag ⟨"a".toList, "BLUE".toList, 4⟩) ∧
    ([("b\n2".toList), ("a\n4".toList)] : List PyStr).count
        (Tag.str ⟨"a".toList, "BLUE".toList, 4⟩) ≤ 1 ∧
    (∀ x ∈ ([("b\n2".toList), ("a\n4".toList)] : List PyStr), tameStr x) ∧
    (removeLoop [GenTag.tag ⟨"a".toList, "BLUE".toList, 4⟩]
        [("b\n2".toList), ("a\n4".toList)] =
      ([("b\n2".toList), ("a\n4".toList)] : List PyStr).erase
        (Tag.str ⟨"a".toList, "BLUE".toList, 4⟩) ∧
    (remove_tag true (.single (.str ("a\n4".toList)))
        ⟨true, some (.strings [("b\n2".toList), ("a\n4".toList)])⟩).2 = none ∧
    ∃ l, get_tags true (remove_tag true (.single (.str ("a\n4".toList)))
        ⟨true, some (.strings [("b\n2".toList), ("a\n4".toList)])⟩).1 = .ok l ∧
      ∀ u ∈ l, Tag.str u ≠ Tag.str ⟨"a".toList, "BLUE".toList, 4⟩) :=
  ⟨by decide, by decide, by decide,
    c2_remove ⟨true, some (.strings [("b\n2".toList), ("a\n4".toList)])⟩
      [("b\n2".toList), ("a\n4".toList)] (.str ("a\n4".toList))
      ⟨"a".toList, "BLUE".toList, 4⟩ rfl (by decide) (by decide) (by decide)
      (by decide)⟩

/-- C3, counterexample: a Tag produced by the constructor whose name
contains a line separator does not round-trip: with an embedded `'\n'`,
parsing the encoded string fails with the unpacking `ValueError`; with an
embedded `'\r'` (which `splitlines` also treats as a line boundary, with
`"\r\n"` collapsing to one boundary), parsing succeeds but returns a
different Tag. -/
theorem c3_counterexample :
    (Tag.construct ("a\nb".toList) (.i 4) =
      .ok (⟨"a\nb".toList, "BLUE".toList, 4⟩, false) ∧
    Tag.from_string (Tag.str ⟨"a\nb".toList, "BLUE".toList, 4⟩) =
      .error .valueError) ∧
    (Tag.construct ("a\r".toList) (.i 0) =
      .ok (⟨"a\r".toList, "NONE".toList, 0⟩, false) ∧
    Tag.from_string (Tag.str ⟨"a\r".toList, "NONE".toList, 0⟩) =
      .ok ⟨"a".toList, "NONE".toList, 0⟩ ∧
    (⟨"a".toList, "NONE".toList, 0⟩ : Tag) ≠ ⟨"a\r".toList, "NONE".toList, 0⟩) :=
  ⟨⟨by decide, by decide⟩, ⟨by decide, by decide, by decide⟩⟩

/-- C3, amended: for every Tag producible by the constructor whose name
contains no line-boundary character (`\n`, `\r`, `\v`, `\f`,
`\x1c`-`\x1e`, `\x85`, U+2028, U+2029), parsing its encoded string
returns, without failure, a Tag equal to it (component-wise on name,
color and color_code). -/
theorem c3_roundtrip (name : PyStr) (c : ColorInput) (t : Tag) (w : Bool)
    (h : Tag.construct name c = .ok (t, w)) (hbf : boundaryFree name) :
    Tag.from_string (Tag.str t) = .ok t := by
  obtain ⟨hn, hcc⟩ := construct_ok h
  exact from_string_str hcc (by rw [hn]; exact hbf)

/-- C3, witness for `c3_roundtrip` on `Construct("Urgent", "RED")`. -/
theorem c3_roundtrip_witness :
    Tag.construct ("Urgent".toList) (.s ("RED".toList)) =
      .ok (⟨"Urgent".toList, "RED".toList, 6⟩, false) ∧
    boundaryFree ("Urgent".toList) ∧
    Tag.from_string (Tag.str ⟨"Urgent".toList, "RED".toList, 6⟩) =
      .ok ⟨"Urgent".toList, "RED".toList, 6⟩ :=
  ⟨by decide, by decide,
    c3_roundtrip ("Urgent".toList) (.s ("RED".toList))
      ⟨"Urgent".toList, "RED".toList, 6⟩ false (by decide) (by decide)⟩

/-- C4, counterexample: a negative integer color input does not fall back
to NONE/0 with a warning — `str(-1)` is not numeric, so the code calls
`(-1).upper()` and raises `AttributeError`. -/
theorem c4_counterexample :
    Tag.construct ("x".toList) (.i (-1)) = .error .attributeError := by decide

/-- C4, amended: for every nonnegative integer color input outside 0–7
the constructor emits a validation warning and returns a Tag with
color NONE and colorCode 0 without failing; for every negative integer
it instead raises (`AttributeError`). -/
theorem c4_fallback :
    (∀ (name : PyStr) (n : Int), 8 ≤ n →
      Tag.construct name (.i n) = .ok (⟨name, "NONE".toList, 0⟩, true)) ∧
    (∀ (name : PyStr) (n : Int), n < 0 →
      Tag.construct name (.i n) = .error .attributeError) := by
  constructor
  · intro name n h8
    have hnum : pyIsNumeric (pyStrOfColor (.i n)) = true := by
      show pyIsNumeric (intToPyStr n) = true
      rw [intToPyStr, if_neg (by omega : ¬ n < 0)]
      exact natToDigits_isNumeric _
    have hcc : codeToColor (pyIntOfColor (.i n)) = none := by
      show codeToColor n = none
      rw [codeToColor]
      split_ifs <;> first | rfl | omega
    have e1 := mcts_num_none hnum hcc
    have e2 := mctc_num_none hnum hcc
    rw [construct_eq_ok e1 e2]
    rfl
  · intro name n hneg
    have hd : ('-' : Char).isDigit = false := by decide
    have hnum : ¬ pyIsNumeric (pyStrOfColor (.i n)) = true := by
      show ¬ pyIsNumeric (intToPyStr n) = true
      rw [intToPyStr, if_pos hneg]
      simp [pyIsNumeric, hd]
    exact construct_eq_err (mcts_int_err hnum)

/-- C4, witness for `c4_fallback` at inputs 9 and -3. -/
theorem c4_fallback_witness :
    ((8 : Int) ≤ 9 ∧
      Tag.construct ("Work".toList) (.i 9) =
        .ok (⟨"Work".toList, "NONE".toList, 0⟩, true)) ∧
    ((-3 : Int) < 0 ∧
      Tag.construct ("x".toList) (.i (-3)) = .error .attributeError) :=
  ⟨⟨by decide, c4_fallback.1 _ 9 (by decide)⟩,
    ⟨by decide, c4_fallback.2 _ (-3) (by decide)⟩⟩

/-- C5 (code bug): `_generate_tag` returns a non-Tag, non-str, non-tuple
input unchanged instead of failing fast (the `except TypeError:
sys.exit(1)` in `add_tag` never fires for such inputs), and `add_tag`
then stringifies it and happily writes a tag — `add_tag(None, f)` writes
the encoded string `"None\n0"` with no error. -/
theorem c5_passthrough :
    generate_tag (.intVal 5) = .ok (.intVal 5) ∧
    generate_tag .noneVal = .ok .noneVal ∧
    add_tag true (.single .noneVal) ⟨true, none⟩ =
      (⟨false, some (.strings [("None\n0".toList)])⟩, none) :=
  ⟨rfl, rfl, by decide⟩

/-- C6, counterexample: `get_tags` does not swallow every read problem —
attribute bytes that `plistlib.loads` cannot decode raise, and so does a
stored entry that does not parse as an encoded tag string. -/
theorem c6_counterexample :
    get_tags true ⟨false, some .undecodable⟩ = .error .plistError ∧
    get_tags true ⟨false, some (.strings [("a\nb\nc".toList)])⟩ =
      .error .valueError :=
  ⟨by decide, by decide⟩

/-- C6, amended: `get_tags` returns an empty sequence and never an error
when the platform lacks tag support, or when the tag attribute is absent
or unreadable (`getxattr` raising `OSError`); undecodable attribute
bytes or unparseable stored entries instead propagate an error. -/
theorem c6_empty :
    (∀ st : FileState, get_tags false st = .ok []) ∧
    (∀ st : FileState, st.tagAttr = none → get_tags true st = .ok []) := by
  constructor
  · intro st
    rfl
  · intro st h
    have h1 : get_raw_tags true st = .ok [] := by
      rw [get_raw_tags, if_pos rfl, h]
    simp only [get_tags, h1]
    rfl

/-- C6, witness for `c6_empty` at a file with no tag attribute. -/
theorem c6_empty_witness :
    get_tags false ⟨true, some .undecodable⟩ = .ok [] ∧
    get_tags true ⟨true, none⟩ = .ok [] :=
  ⟨c6_empty.1 _, c6_empty.2 ⟨true, none⟩ rfl⟩

/-- C7, counterexample: `add_tag` is not idempotent. Adding the string
input `"a\r"` twice: the membership test compares the raw encoded form
`"a\r\n0"`, but the write stage's re-normalization collapses `"\r\n"` to
one line boundary and stores `"a\n0"`, so the second call fails the
membership test again and writes a duplicate. -/
theorem c7_counterexample :
    validInput (.single (.str ("a\r".toList))) ∧
    (add_tag true (.single (.str ("a\r".toList))) ⟨true, none⟩).1 =
      ⟨false, some (.strings [("a\n0".toList)])⟩ ∧
    (add_tag true (.single (.str ("a\r".toList)))
        ⟨false, some (.strings [("a\n0".toList)])⟩).1 =
      ⟨false, some (.strings [("a\n0".toList), ("a\n0".toList)])⟩ :=
  ⟨trivial, by decide, by decide⟩

/-- C7, amended: `add_tag` is idempotent for every spec-admitted tag
input (a Tag produced by the constructor, a string, or a tuple) whose
string components contain no line-boundary character other than `'\n'`,
over every state whose stored raw entries also contain no line-boundary
character other than `'\n'`: running the same `add_tag` twice leaves the
stored tag list exactly as it was after the first run, so the second
call introduces no duplicate encoded strings. -/
theorem c7_idempotent (inp : AddInput) (hv : validInput inp)
    (htm : tameInput inp) (st : FileState) (hst : tameState st) :
    (add_tag true inp (add_tag true inp st).1).1.tagAttr =
      (add_tag true inp st).1.tagAttr := by
  cases hg : genAll inp with
  | error e => simp [add_tag, hg]
  | ok gl =>
    cases hr : get_raw_tags true st with
    | error e => simp [add_tag, hg, hr]
    | ok raw =>
      cases hm : exceptMap canonStr (addLoop gl raw) with
      | error e =>
        have h1 : add_tag true inp st = ({ st with finderInfo := false }, some e) := by
          simp only [add_tag, hg, hr]
          exact set_tags_str_error hm
        have hr2 : get_raw_tags true ({ st with finderInfo := false } : FileState) =
            .ok raw := (get_raw_eq rfl).trans hr
        have h2 : add_tag true inp ({ st with finderInfo := false } : FileState) =
            ({ st with finderInfo := false }, some e) := by
          simp only [add_tag, hg, hr2]
          exact set_tags_str_error hm
        rw [h1, h2]
      | ok ws =>
        have h1 : add_tag true inp st = (⟨false, some (.strings ws)⟩, none) := by
          simp only [add_tag, hg, hr]
          exact set_tags_str_ok hm
        rw [h1]
        have hvr := genAll_valid hv htm hg
        have hrt : ∀ x ∈ raw, tameStr x := get_raw_tame hst hr
        have hmem : ∀ g ∈ gl, strOf g ∈ ws := by
          intro g hgm
          obtain ⟨t, hgt, hcc, htn⟩ := hvr g hgm
          subst hgt
          have htags : strOf (GenTag.tag t) ∈ addLoop gl raw := addLoop_mem hgm raw
          obtain ⟨y, hy, hcy⟩ := exceptMap_mem_left hm htags
          obtain ⟨hyt, hbf⟩ := canon_str_inv hcc htn hcy
          show Tag.str t ∈ ws
          rw [← hyt]
          exact hy
        have h2 : addLoop gl ws = ws := addLoop_fixed hmem
        have hcanon : exceptMap canonStr ws = .ok ws := by
          apply exceptMap_id_of
          intro y hy
          obtain ⟨x, hx, hcx⟩ := exceptMap_mem_right hm hy
          rcases addLoop_mem_inv hx with hxr | ⟨g, hg2, hxg⟩
          · obtain ⟨t2, hft, hst2, hcy⟩ := canonStr_tame_ok (hrt x hxr) hcx
            exact hcy
          · obtain ⟨t, hgt, hcc, htn⟩ := hvr g hg2
            subst hgt
            have hcx2 : canonStr (Tag.str t) = .ok y := by rw [hxg] at hcx; exact hcx
            obtain ⟨hyt, hbf⟩ := canon_str_inv hcc htn hcx2
            rw [hyt]
            exact canon_str_stable hcc hbf
        have hrr : get_raw_tags true (⟨false, some (.strings ws)⟩ : FileState) =
            .ok ws := rfl
        simp only [add_tag, hg, hrr, h2]
        rw [set_tags_str_ok hcanon]

/-- C7, witness for `c7_idempotent` on adding `"Urgent\nRED"` twice to an
empty store. -/
theorem c7_idempotent_witness :
    validInput (.single (.str ("Urgent\nRED".toList))) ∧
    tameInput (.single (.str ("Urgent\nRED".toList))) ∧
    tameState ⟨true, none⟩ ∧
    (add_tag true (.single (.str ("Urgent\nRED".toList)))
        (add_tag true (.single (.str ("Urgent\nRED".toList))) ⟨true, none⟩).1).1.tagAttr =
      (add_tag true (.single (.str ("Urgent\nRED".toList))) ⟨true, none⟩).1.tagAttr :=
  by
  refine ⟨trivial, ?_, ?_, ?_⟩
  · show tameStr ("Urgent\nRED".toList)
    decide
  · intro raw h
    exact nomatch h
  · exact c7_idempotent (.single (.str ("Urgent\nRED".toList))) trivial
      (show tameStr ("Urgent\nRED".toList) by decide) ⟨true, none⟩
      (fun raw h => nomatch h)

/-- C8: for every Tag the constructor produces, the `color` and
`color_code` fields refer to the same entry of the 8-entry bijection
table (the name-to-code table maps `color` to `color_code`), even though
the two fields are computed by the two separate resolution functions. -/
theorem c8_agreement (name : PyStr) (c : ColorInput) (t : Tag) (w : Bool)
    (h : Tag.construct name c = .ok (t, w)) :
    colorToCode t.color = some t.color_code :=
  codeToColor_colorToCode (construct_ok h).2

/-- C8, witness for `c8_agreement` on `Construct("Work", "blue")`. -/
theorem c8_agreement_witness :
    Tag.construct ("Work".toList) (.s ("blue".toList)) =
      .ok (⟨"Work".toList, "BLUE".toList, 4⟩, false) ∧
    colorToCode ("BLUE".toList) = some 4 :=
  ⟨by decide,
    c8_agreement ("Work".toList) (.s ("blue".toList))
      ⟨"Work".toList, "BLUE".toList, 4⟩ false (by decide)⟩

/-- C9: on the tag-supporting platform every write deletes the
`FinderInfo` attribute before writing (also when the write itself then
fails; a no-op when absent), a successful write fully replaces the tag
attribute with the new string list independently of the previous value,
and all three mutating operations either leave the state untouched (an
exception before the write stage) or write through this protocol. -/
theorem c9_write_protocol :
    (∀ st : FileState,
      remove_all_tags true st = (⟨false, some (.strings [])⟩, none)) ∧
    (∀ (items : List TSItem) (st : FileState),
      (set_tags true items st).1.finderInfo = false ∧
      ((set_tags true items st).2 = none →
        ∃ l, (set_tags true items st).1 = ⟨false, some (.strings l)⟩) ∧
      ((set_tags true items st).2 ≠ none →
        (set_tags true items st).1.tagAttr = st.tagAttr)) ∧
    (∀ (items : List TSItem) (st st2 : FileState),
      (set_tags true items st).2 = none → (set_tags true items st2).2 = none →
      (set_tags true items st).1.tagAttr = (set_tags true items st2).1.tagAttr) ∧
    (∀ (inp : AddInput) (st : FileState),
      (add_tag true inp st).1 = st ∨
      ∃ items, add_tag true inp st = set_tags true items st) ∧
    (∀ (inp : AddInput) (st : FileState),
      (remove_tag true inp st).1 = st ∨
      ∃ items, remove_tag true inp st = set_tags true items st) := by
  refine ⟨fun st => rfl, ?_, ?_, ?_, ?_⟩
  · intro items st
    cases hm : exceptMap normalize_entry items with
    | error e =>
      rw [set_tags_eq_error hm]
      exact ⟨rfl, fun hc => by simp at hc, fun hc => rfl⟩
    | ok l =>
      rw [set_tags_eq_ok hm]
      exact ⟨rfl, fun hc => ⟨l, rfl⟩, fun hc => absurd rfl hc⟩
  · intro items st st2 h1 h2
    cases hm : exceptMap normalize_entry items with
    | error e =>
      rw [set_tags_eq_error hm] at h1
      simp at h1
    | ok l =>
      have e1 : set_tags true items st = (⟨false, some (.strings l)⟩, none) :=
        set_tags_eq_ok hm
      have e2 : set_tags true items st2 = (⟨false, some (.strings l)⟩, none) :=
        set_tags_eq_ok hm
      rw [e1, e2]
  · intro inp st
    cases hg : genAll inp with
    | error e => left; simp [add_tag, hg]
    | ok gl =>
      cases hr : get_raw_tags true st with
      | error e => left; simp [add_tag, hg, hr]
      | ok raw =>
        right
        exact ⟨(addLoop gl raw).map TSItem.str, by simp [add_tag, hg, hr]⟩
  · intro inp st
    cases hg : genAll inp with
    | error e => left; simp [remove_tag, hg]
    | ok gl =>
      cases hr : get_raw_tags true st with
      | error e => left; simp [remove_tag, hg, hr]
      | ok raw =>
        right
        exact ⟨(removeLoop gl raw).map TSItem.str, by simp [remove_tag, hg, hr]⟩

/-- C9, witness instantiating `c9_write_protocol` concretely. -/
theorem c9_write_protocol_witness :
    remove_all_tags true ⟨true, none⟩ = (⟨false, some (.strings [])⟩, none) ∧
    (∃ l, (set_tags true [] (⟨true, none⟩ : FileState)).1 =
      ⟨false, some (.strings l)⟩) :=
  ⟨c9_write_protocol.1 _, (c9_write_protocol.2.1 [] ⟨true, none⟩).2.1 rfl⟩

/-- C10, counterexample: a string containing two or more line separators
need not fail to parse. `"a\nb\n"` contains two `'\n'` separators, yet
`splitlines` drops the trailing empty piece, yields exactly two parts,
and `from_string` succeeds; `"a\rb\rc"` contains two `'\r'` separators
and splits into three parts, yet `from_string` only tests for an
embedded `'\n'` and returns the whole string as the name. -/
theorem c10_counterexample :
    (("a\nb\n".toList).count '\n' = 2 ∧
    splitlines ("a\nb\n".toList) = [("a".toList), ("b".toList)] ∧
    Tag.from_string ("a\nb\n".toList) = .ok ⟨"a".toList, "NONE".toList, 0⟩) ∧
    ((splitlines ("a\rb\rc".toList)).length = 3 ∧
    Tag.from_string ("a\rb\rc".toList) =
      .ok ⟨"a\rb\rc".toList, "NONE".toList, 0⟩) :=
  ⟨⟨by decide, by decide, by decide⟩, ⟨by decide, by decide⟩⟩

/-- C10, amended: for every string that contains `'\n'` and that
`splitlines` splits into three or more parts, `Tag.from_string` fails
with the unpacking `ValueError`; consequently `get_tags` over a store
containing such an entry fails with that `ValueError` as well. -/
theorem c10_multiline_fails (s : PyStr) (hnl : '\n' ∈ s)
    (h3 : 3 ≤ (splitlines s).length) :
    Tag.from_string s = .error .valueError ∧
    ∀ (st : FileState) (raw : List PyStr),
      st.tagAttr = some (.strings raw) → s ∈ raw →
      get_tags true st = .error .valueError := by
  have hshape : ∃ a b c2 l, splitlines s = a :: b :: c2 :: l := by
    cases hsp : splitlines s with
    | nil => rw [hsp] at h3; simp at h3
    | cons a t1 =>
      cases t1 with
      | nil => rw [hsp] at h3; simp at h3
      | cons b t2 =>
        cases t2 with
        | nil => rw [hsp] at h3; simp at h3
        | cons c2 l => exact ⟨a, b, c2, l, rfl⟩
  obtain ⟨a, b, c2, l, hsp⟩ := hshape
  have hfs : Tag.from_string s = .error .valueError := by
    rw [Tag.from_string, if_pos hnl, hsp]
  refine ⟨hfs, ?_⟩
  intro st raw hst hmem
  have hraw : get_raw_tags true st = .ok raw := by
    rw [get_raw_tags, if_pos rfl, hst]
  simp only [get_tags, hraw]
  exact exceptMap_error_uniform (fun z e he => from_string_error he) hmem hfs

/-- C10, witness for `c10_multiline_fails` on `"a\nb\nc"`. -/
theorem c10_multiline_fails_witness :
    '\n' ∈ ("a\nb\nc".toList) ∧
    3 ≤ (splitlines ("a\nb\nc".toList)).length ∧
    Tag.from_string ("a\nb\nc".toList) = .error .valueError ∧
    get_tags true ⟨true, some (.strings [("a\nb\nc".toList)])⟩ =
      .error .valueError :=
  ⟨by decide, by decide,
    (c10_multiline_fails ("a\nb\nc".toList) (by decide) (by decide)).1,
    (c10_multiline_fails ("a\nb\nc".toList) (by decide) (by decide)).2
      ⟨true, some (.strings [("a\nb\nc".toList)])⟩ [("a\nb\nc".toList)]
      rfl (by decide)⟩

end Taggit
